import Mathlib

/-!
Verification development for the streaming ZIP packager of `ssbt-tool`
(`src/ssbt-tool/src/packaging/zip.rs`).

The output writer (`W: Write` in the source) is modelled as the list of
bytes it has accepted so far, together with an optional capacity: a
`write_all` call that would push the total number of accepted bytes past
the capacity fails, which models a destination write error at that point
of the stream.  A source file is modelled by the outcome of the
`exists` / `is_file` checks, and, for a regular file, by the list of
chunks that successive `read` calls return before end of file (the source
loop stops at the first empty read, so a real read trace is a list of
non-empty chunks followed by end of file).  DEFLATE compression (the
`flate2` encoder) is kept abstract as a function from the uncompressed
byte sequence to the compressed byte sequence.
-/

/-- Bytes accepted so far by the output writer. -/
abbrev W := List Nat

/-- Errors of a packaging run: `io::ErrorKind::NotFound` for a missing
source, `io::ErrorKind::InvalidInput` for a source that is not a regular
file, and a failed write to the destination writer. -/
inductive ZipErr
  | sourceNotFound
  | sourceNotRegularFile
  | sinkWriteError
deriving DecidableEq

/-- Mirrors `Compression` (zip.rs lines 10-15). -/
inductive Compression
  | Store
  | Deflate
deriving DecidableEq

/-- Result of the `exists` / `is_file` checks on a source path; a regular
file carries the chunk lists that successive reads deliver. -/
inductive FileStatus
  | notFound
  | notRegularFile
  | regular (chunks : List (List Nat))
deriving DecidableEq

/-- Mirrors `FileEntry` (zip.rs lines 17-24): `source_path` stands for the
filesystem state at the source path, `archive_path` is the stored name as
its UTF-8 bytes, and `modified_secs` is the file's modification time in
seconds since the epoch (read through `metadata().modified()`). -/
structure FileEntry where
  source_path : FileStatus
  archive_path : List Nat
  modified_secs : Nat
deriving DecidableEq

/-- Mirrors `CentralDirectoryEntry` (zip.rs lines 64-73). -/
structure CentralDirectoryEntry where
  file_name : List Nat
  compressed_size : Nat
  uncompressed_size : Nat
  crc32 : Nat
  local_header_offset : Nat
  compression_method : Nat
  modified_time : Nat
  modified_date : Nat
deriving DecidableEq

/-- Mirrors `dos_datetime` (zip.rs lines 76-85): the modification time is
ignored and the constant pair time `0`, date `0x21` (1980-01-01 00:00) is
produced. -/
def dos_datetime (_secs : Nat) : Nat × Nat :=
  (0, 0x21)

/-- Numeric compression method code (zip.rs lines 348-351). -/
def methodCode : Compression → Nat
  | .Store => 0
  | .Deflate => 8

/-- Little-endian bytes of a 16-bit value (`u16::to_le_bytes`). -/
def le16 (v : Nat) : List Nat := [v % 256, v / 256 % 256]

/-- Little-endian bytes of a 32-bit value (`u32::to_le_bytes`). -/
def le32 (v : Nat) : List Nat :=
  [v % 256, v / 256 % 256, v / 65536 % 256, v / 16777216 % 256]

/-- Little-endian bytes of a 64-bit value (`u64::to_le_bytes`). -/
def le64 (v : Nat) : List Nat :=
  [v % 256, v / 2 ^ 8 % 256, v / 2 ^ 16 % 256, v / 2 ^ 24 % 256,
   v / 2 ^ 32 % 256, v / 2 ^ 40 % 256, v / 2 ^ 48 % 256, v / 2 ^ 56 % 256]

/-- One `write_all` call on the modelled writer: within the capacity the
bytes are appended; beyond it the writer reports an error, and the run
observes the bytes accepted before the failing call. -/
def writeAll (cap : Option Nat) (w : W) (bs : List Nat) : Except (ZipErr × W) W :=
  match cap with
  | none => .ok (w ++ bs)
  | some b => if w.length + bs.length ≤ b then .ok (w ++ bs) else .error (.sinkWriteError, w)

/-- Mirrors `write_u16` (zip.rs lines 87-89). -/
def write_u16 (cap : Option Nat) (w : W) (v : Nat) : Except (ZipErr × W) W :=
  writeAll cap w (le16 v)

/-- Mirrors `write_u32` (zip.rs lines 91-93). -/
def write_u32 (cap : Option Nat) (w : W) (v : Nat) : Except (ZipErr × W) W :=
  writeAll cap w (le32 v)

/-- Mirrors `write_u64` (zip.rs lines 95-97). -/
def write_u64 (cap : Option Nat) (w : W) (v : Nat) : Except (ZipErr × W) W :=
  writeAll cap w (le64 v)

/-- Mirrors `crc32` (zip.rs lines 100-113): for each byte, xor it into the
register and run eight reflected-polynomial rounds (`for _ in 0..8`). -/
def crc32 (data : List Nat) (current : Nat) : Nat :=
  data.foldl
    (fun crc byte =>
      (List.range 8).foldl
        (fun c _ => if c &&& 1 ≠ 0 then (c >>> 1) ^^^ 0xEDB88320 else c >>> 1)
        (crc ^^^ byte))
    current

/-- Reference single round of the reflected CRC-32: shift the register
right by one and xor the polynomial 0xEDB88320 when the dropped bit was
set.  Written independently of `crc32`, following the specification's
description of the checksum. -/
def crcSpecRound (c : Nat) : Nat :=
  if c % 2 = 1 then (c / 2) ^^^ 0xEDB88320 else c / 2

/-- Reference per-byte step of the reflected CRC-32. -/
def crcSpecByte (c b : Nat) : Nat := crcSpecRound^[8] (c ^^^ b)

/-- Reference CRC-32 register after consuming a byte sequence. -/
def crcSpecLoop : List Nat → Nat → Nat
  | [], c => c
  | b :: rest, c => crcSpecLoop rest (crcSpecByte c b)

/-- Reference CRC-32 of a byte sequence: reflected polynomial 0xEDB88320,
initial register 0xFFFFFFFF, output the bitwise complement of the final
register. -/
def crc32_spec (data : List Nat) : Nat :=
  crcSpecLoop data 0xFFFFFFFF ^^^ 0xFFFFFFFF

/-- Mirrors `write_local_header` (zip.rs lines 116-158); each `.bind` is
one `?`-propagated write. -/
def write_local_header (cap : Option Nat) (w : W) (file_name : List Nat)
    (compression_method modified_time modified_date : Nat) : Except (ZipErr × W) W :=
  (write_u32 cap w 0x04034b50).bind fun w =>
  (write_u16 cap w 20).bind fun w =>
  (write_u16 cap w 0x0008).bind fun w =>
  (write_u16 cap w compression_method).bind fun w =>
  (write_u16 cap w modified_time).bind fun w =>
  (write_u16 cap w modified_date).bind fun w =>
  (write_u32 cap w 0).bind fun w =>
  (write_u32 cap w 0).bind fun w =>
  (write_u32 cap w 0).bind fun w =>
  (write_u16 cap w (file_name.length % 65536)).bind fun w =>
  (write_u16 cap w 0).bind fun w =>
  writeAll cap w file_name

/-- Mirrors `write_data_descriptor` (zip.rs lines 161-180): signature,
CRC-32, then the two sizes in 64-bit width. -/
def write_data_descriptor (cap : Option Nat) (w : W)
    (crc compressed_size uncompressed_size : Nat) : Except (ZipErr × W) W :=
  (write_u32 cap w 0x08074b50).bind fun w =>
  (write_u32 cap w crc).bind fun w =>
  (write_u64 cap w compressed_size).bind fun w =>
  write_u64 cap w uncompressed_size

/-- The `needs_zip64` condition of `write_central_directory_header`
(zip.rs lines 219-221). -/
def needs_zip64 (entry : CentralDirectoryEntry) : Prop :=
  0xFFFFFFFF < entry.compressed_size ∨ 0xFFFFFFFF < entry.uncompressed_size ∨
    0xFFFFFFFF < entry.local_header_offset

instance (entry : CentralDirectoryEntry) : Decidable (needs_zip64 entry) := by
  unfold needs_zip64; infer_instance

/-- Mirrors `write_central_directory_header` (zip.rs lines 183-251). -/
def write_central_directory_header (cap : Option Nat) (w : W)
    (entry : CentralDirectoryEntry) : Except (ZipErr × W) W :=
  (write_u32 cap w 0x02014b50).bind fun w =>
  (write_u16 cap w 0x031E).bind fun w =>
  (write_u16 cap w 20).bind fun w =>
  (write_u16 cap w 0x0008).bind fun w =>
  (write_u16 cap w entry.compression_method).bind fun w =>
  (write_u16 cap w entry.modified_time).bind fun w =>
  (write_u16 cap w entry.modified_date).bind fun w =>
  (write_u32 cap w entry.crc32).bind fun w =>
  (write_u32 cap w (min entry.compressed_size 0xFFFFFFFF)).bind fun w =>
  (write_u32 cap w (min entry.uncompressed_size 0xFFFFFFFF)).bind fun w =>
  (write_u16 cap w (entry.file_name.length % 65536)).bind fun w =>
  (write_u16 cap w (if needs_zip64 entry then 20 else 0)).bind fun w =>
  (write_u16 cap w 0).bind fun w =>
  (write_u16 cap w 0).bind fun w =>
  (write_u16 cap w 0).bind fun w =>
  (write_u32 cap w (0o644 <<< 16)).bind fun w =>
  (write_u32 cap w (min entry.local_header_offset 0xFFFFFFFF)).bind fun w =>
  (writeAll cap w entry.file_name).bind fun w =>
  if needs_zip64 entry then
    (write_u16 cap w 0x0001).bind fun w =>
    (write_u16 cap w 16).bind fun w =>
    (write_u64 cap w entry.uncompressed_size).bind fun w =>
    write_u64 cap w entry.compressed_size
  else .ok w

/-- Mirrors `write_end_of_central_directory` (zip.rs lines 254-285);
`num_entries` is the already-truncated `u16` the caller passes. -/
def write_end_of_central_directory (cap : Option Nat) (w : W)
    (num_entries central_dir_size central_dir_offset : Nat) : Except (ZipErr × W) W :=
  (write_u32 cap w 0x06054b50).bind fun w =>
  (write_u16 cap w 0).bind fun w =>
  (write_u16 cap w 0).bind fun w =>
  (write_u16 cap w num_entries).bind fun w =>
  (write_u16 cap w num_entries).bind fun w =>
  (write_u32 cap w (min central_dir_size 0xFFFFFFFF)).bind fun w =>
  (write_u32 cap w (min central_dir_offset 0xFFFFFFFF)).bind fun w =>
  write_u16 cap w 0

/-- Mirrors the `Compression::Store` read/write loop of
`package_zip_streaming` (zip.rs lines 367-379): per chunk, update the CRC,
write the chunk, and grow both size counters. -/
def streamStore (cap : Option Nat) (w : W) (chunks : List (List Nat))
    (crc uncompressed_size compressed_size : Nat) :
    Except (ZipErr × W) (W × Nat × Nat × Nat) :=
  match chunks with
  | [] => .ok (w, crc, uncompressed_size, compressed_size)
  | c :: rest =>
    let crc := crc32 c crc
    (writeAll cap w c).bind fun w =>
    streamStore cap w rest crc (uncompressed_size + c.length) (compressed_size + c.length)

/-- CRC and byte-count accumulation of the `Compression::Deflate` loop
(zip.rs lines 388-396); the compressed bytes themselves pass through the
`flate2` encoder into the writer. -/
def streamDeflateAcc (chunks : List (List Nat)) (crc uncompressed_size : Nat) : Nat × Nat :=
  match chunks with
  | [] => (crc, uncompressed_size)
  | c :: rest => streamDeflateAcc rest (crc32 c crc) (uncompressed_size + c.length)

/-- One iteration of the per-file loop of `package_zip_streaming`
(zip.rs lines 329-421): source checks, local header, payload streaming,
data descriptor, and the pushed directory record.  For `Deflate` the
compressed output is `d` applied to the whole uncompressed sequence, and
`compressed_size` is computed from the writer length as at zip.rs line
398 (`encoder.finish()?.len()`), with `u64` wrap-around arithmetic. -/
def processEntry (cap : Option Nat) (compression : Compression) (d : List Nat → List Nat)
    (w : W) (current_offset : Nat) (cdes : List CentralDirectoryEntry) (entry : FileEntry) :
    Except (ZipErr × W) (W × Nat × List CentralDirectoryEntry) :=
  match entry.source_path with
  | .notFound => .error (.sourceNotFound, w)
  | .notRegularFile => .error (.sourceNotRegularFile, w)
  | .regular chunks =>
    let mod := dos_datetime entry.modified_secs
    let compression_method := methodCode compression
    let local_header_offset := current_offset
    (write_local_header cap w entry.archive_path compression_method mod.1 mod.2).bind fun w =>
    let current_offset := current_offset + 30 + entry.archive_path.length
    (match compression with
     | .Store => streamStore cap w chunks 0xFFFFFFFF 0 0
     | .Deflate =>
       let acc := streamDeflateAcc chunks 0xFFFFFFFF 0
       (writeAll cap w (d chunks.flatten)).bind fun w =>
       .ok (w, acc.1, acc.2,
         (((w.length : Int) - (current_offset : Int) - 30 - (entry.archive_path.length : Int))
           % (2 : Int) ^ 64).toNat)).bind fun res =>
    let w := res.1
    let crc := res.2.1
    let uncompressed_size := res.2.2.1
    let compressed_size := res.2.2.2
    let current_offset := current_offset + compressed_size
    let crc := crc ^^^ 0xFFFFFFFF
    (write_data_descriptor cap w crc compressed_size uncompressed_size).bind fun w =>
    let current_offset := current_offset + 20
    .ok (w, current_offset,
      cdes ++ [({ file_name := entry.archive_path, compressed_size, uncompressed_size,
                  crc32 := crc, local_header_offset, compression_method,
                  modified_time := mod.1, modified_date := mod.2 } : CentralDirectoryEntry)])

/-- The per-file loop of `package_zip_streaming` over the whole entry
list, in input order. -/
def processEntries (cap : Option Nat) (compression : Compression) (d : List Nat → List Nat)
    (w : W) (current_offset : Nat) (cdes : List CentralDirectoryEntry) :
    List FileEntry → Except (ZipErr × W) (W × Nat × List CentralDirectoryEntry)
  | [] => .ok (w, current_offset, cdes)
  | f :: rest =>
    (processEntry cap compression d w current_offset cdes f).bind fun st =>
    processEntries cap compression d st.1 st.2.1 st.2.2 rest

/-- The central-directory loop of `package_zip_streaming` (zip.rs lines
426-434): write each directory header and advance the offset counter by
46 + name length, plus 20 when the ZIP64 extra field was appended. -/
def writeCentralDirectory (cap : Option Nat) (w : W) (current_offset : Nat) :
    List CentralDirectoryEntry → Except (ZipErr × W) (W × Nat)
  | [] => .ok (w, current_offset)
  | e :: rest =>
    (write_central_directory_header cap w e).bind fun w =>
    writeCentralDirectory cap w
      (current_offset + 46 + e.file_name.length + (if needs_zip64 e then 20 else 0)) rest

/-- Mirrors `package_zip_streaming` (zip.rs lines 320-447): process all
entries, record the directory start offset, write the central directory,
then the end-of-central-directory record with the entry count cast to
`u16` (`as u16`, i.e. reduced modulo 2^16). -/
def package_zip_streaming (cap : Option Nat) (compression : Compression)
    (d : List Nat → List Nat) (files : List FileEntry) : Except (ZipErr × W) W :=
  (processEntries cap compression d [] 0 [] files).bind fun st =>
  (writeCentralDirectory cap st.1 st.2.1 st.2.2).bind fun st2 =>
  write_end_of_central_directory cap st2.1 (st.2.2.length % 65536) (st2.2 - st.2.1) st.2.1

/-! Claim-side byte-layout descriptions, used to state what the monadic
writer chains emit. -/

/-- Byte layout of one local header as the specification describes it:
signature, version 20, flag 0x0008, method code, time, date, three zeroed
placeholders, name length (a `u16`, hence modulo 2^16), zero extra-field
length, then the name bytes. -/
def localHeaderBytes (file_name : List Nat) (compression_method modified_time modified_date : Nat) :
    List Nat :=
  le32 0x04034b50 ++ le16 20 ++ le16 0x0008 ++ le16 compression_method ++
  le16 modified_time ++ le16 modified_date ++ le32 0 ++ le32 0 ++ le32 0 ++
  le16 (file_name.length % 65536) ++ le16 0 ++ file_name

/-- Byte layout of one trailing data descriptor: signature, CRC-32, and
the two sizes in 64-bit width (24 bytes in total). -/
def ddBytes (crc compressed_size uncompressed_size : Nat) : List Nat :=
  le32 0x08074b50 ++ le32 crc ++ le64 compressed_size ++ le64 uncompressed_size

/-- Byte layout of one central directory record as the claim describes
it: when any of compressed size, uncompressed size, or offset exceeds
0xFFFFFFFF, the three 32-bit fields are capped at the all-ones sentinel
and a 20-byte extra block with tag 0x0001 carrying the true 64-bit sizes
follows the name; otherwise the extra-field length is 0 and the 32-bit
fields hold the true values. -/
def cdhBytes (e : CentralDirectoryEntry) : List Nat :=
  if needs_zip64 e then
    le32 0x02014b50 ++ le16 0x031E ++ le16 20 ++ le16 0x0008 ++
    le16 e.compression_method ++ le16 e.modified_time ++ le16 e.modified_date ++
    le32 e.crc32 ++ le32 (min e.compressed_size 0xFFFFFFFF) ++
    le32 (min e.uncompressed_size 0xFFFFFFFF) ++ le16 (e.file_name.length % 65536) ++
    le16 20 ++ le16 0 ++ le16 0 ++ le16 0 ++ le32 (0o644 <<< 16) ++
    le32 (min e.local_header_offset 0xFFFFFFFF) ++ e.file_name ++
    (le16 0x0001 ++ le16 16 ++ le64 e.uncompressed_size ++ le64 e.compressed_size)
  else
    le32 0x02014b50 ++ le16 0x031E ++ le16 20 ++ le16 0x0008 ++
    le16 e.compression_method ++ le16 e.modified_time ++ le16 e.modified_date ++
    le32 e.crc32 ++ le32 e.compressed_size ++ le32 e.uncompressed_size ++
    le16 (e.file_name.length % 65536) ++ le16 0 ++ le16 0 ++ le16 0 ++ le16 0 ++
    le32 (0o644 <<< 16) ++ le32 e.local_header_offset ++ e.file_name

/-- Byte layout of the terminator record for a true entry count `n` (the
encoder casts it to `u16`), a directory size, and a directory offset: the
two 32-bit fields are written capped at the all-ones sentinel when they
exceed 32-bit capacity and as the true value otherwise; the count is
written reduced modulo 2^16. -/
def eocdBytes (n central_dir_size central_dir_offset : Nat) : List Nat :=
  le32 0x06054b50 ++ le16 0 ++ le16 0 ++ le16 (n % 65536) ++ le16 (n % 65536) ++
  (if central_dir_size ≤ 0xFFFFFFFF then le32 central_dir_size else le32 0xFFFFFFFF) ++
  (if central_dir_offset ≤ 0xFFFFFFFF then le32 central_dir_offset else le32 0xFFFFFFFF) ++
  le16 0

/-- Full byte sequence of a regular file: the concatenation of its read
chunks. -/
def contentOf : FileStatus → List Nat
  | .regular chunks => chunks.flatten
  | _ => []

/-- The recorded compressed size of one entry, given the writer length
and offset counter at the start of the entry: the byte count itself for
`Store`, and the (buggy, see zip.rs line 398) writer-length difference
for `Deflate`. -/
def entryCsize (compression : Compression) (d : List Nat → List Nat)
    (wlen off nameLen : Nat) (content : List Nat) : Nat :=
  match compression with
  | .Store => content.length
  | .Deflate =>
    (((wlen + 30 + nameLen + (d content).length : Int) - ((off + 30 + nameLen : Nat) : Int)
      - 30 - (nameLen : Int)) % (2 : Int) ^ 64).toNat

/-- The payload bytes one entry contributes between its local header and
its data descriptor. -/
def payloadBytes (compression : Compression) (d : List Nat → List Nat)
    (content : List Nat) : List Nat :=
  match compression with
  | .Store => content
  | .Deflate => d content

/-- All bytes one entry contributes to the stream, given the writer
length and offset counter at its start. -/
def entryBytesOf (compression : Compression) (d : List Nat → List Nat)
    (wlen off : Nat) (f : FileEntry) : List Nat :=
  localHeaderBytes f.archive_path (methodCode compression) 0 0x21 ++
  payloadBytes compression d (contentOf f.source_path) ++
  ddBytes (crc32_spec (contentOf f.source_path))
    (entryCsize compression d wlen off f.archive_path.length (contentOf f.source_path))
    (contentOf f.source_path).length

/-- How far the (under-counting) offset counter advances for one entry:
30 + name length for the header, the recorded compressed size, and 20 for
the data descriptor (which in fact occupies 24 bytes). -/
def entryDelta (compression : Compression) (d : List Nat → List Nat)
    (wlen off : Nat) (f : FileEntry) : Nat :=
  30 + f.archive_path.length +
    entryCsize compression d wlen off f.archive_path.length (contentOf f.source_path) + 20

/-- The directory record pushed for one entry. -/
def entryCdeOf (compression : Compression) (d : List Nat → List Nat)
    (wlen off : Nat) (f : FileEntry) : CentralDirectoryEntry :=
  ⟨f.archive_path,
   entryCsize compression d wlen off f.archive_path.length (contentOf f.source_path),
   (contentOf f.source_path).length,
   crc32_spec (contentOf f.source_path),
   off, methodCode compression, 0, 0x21⟩

/-- Declarative scan over an entry list: the bytes the per-file loop
appends, the final offset counter, and the directory records, threading
the writer length and offset counter. -/
def entriesScan (compression : Compression) (d : List Nat → List Nat)
    (wlen off : Nat) : List FileEntry → List Nat × Nat × List CentralDirectoryEntry
  | [] => ([], off, [])
  | f :: rest =>
    let eb := entryBytesOf compression d wlen off f
    let t := entriesScan compression d (wlen + eb.length)
      (off + entryDelta compression d wlen off f) rest
    (eb ++ t.1, t.2.1, entryCdeOf compression d wlen off f :: t.2.2)

/-- Every entry's source passed the `exists` and `is_file` checks. -/
def allRegular (files : List FileEntry) : Prop :=
  ∀ f ∈ files, ∃ chunks, f.source_path = .regular chunks

/-- Bytes carried by a run result, whether it succeeded or failed. -/
def bytesOf (r : Except (ZipErr × W) W) : W :=
  match r with
  | .ok w => w
  | .error e => e.2

/-- State carried by a successful per-file loop result (junk on error). -/
def okSt (r : Except (ZipErr × W) (W × Nat × List CentralDirectoryEntry)) :
    W × Nat × List CentralDirectoryEntry :=
  match r with
  | .ok t => t
  | .error e => (e.2, 0, [])

/-- Sample entry: an empty regular file stored as name byte 97. -/
def entryA : FileEntry := ⟨.regular [], [97], 0⟩

/-- Sample entry: an empty regular file stored as name byte 98. -/
def entryB : FileEntry := ⟨.regular [], [98], 0⟩

/-- Sample entry: a missing source path. -/
def entryMissing : FileEntry := ⟨.notFound, [99], 0⟩

/-- Sample entry: a source path that is not a regular file. -/
def entryDir : FileEntry := ⟨.notRegularFile, [100], 0⟩

/-- Sample entry: a three-byte regular file read in two chunks. -/
def entryData : FileEntry := ⟨.regular [[1, 2], [3]], [101], 0⟩

/-- A stored name of 65536 bytes (2^16 letters 'a'). -/
def bigName : List Nat := List.replicate 65536 97

/-- A sequence of `write_all` calls; the header-writing chains of the
source are each equal to one such sequence. -/
def writeSeq (cap : Option Nat) (w : W) : List (List Nat) → Except (ZipErr × W) W
  | [] => .ok w
  | bs :: rest => (writeAll cap w bs).bind fun w => writeSeq cap w rest

/-- Simulation invariant relating a capacity-limited run to the result
`t` of the unlimited run: the limited run either produces exactly `t`
(whose bytes fit the capacity) or stops with a write error whose accepted
bytes are a prefix of the unlimited bytes and fit the capacity. -/
def SimOkG {α : Type} (proj : α → W) (b : Nat) (t : α) (r : Except (ZipErr × W) α) : Prop :=
  (r = .ok t ∧ (proj t).length ≤ b) ∨
  (∃ we, r = .error (.sinkWriteError, we) ∧ we <+: proj t ∧ we.length ≤ b)

/-- The successive `write_all` payloads of `write_local_header`. -/
def lhChunks (file_name : List Nat) (m t d : Nat) : List (List Nat) :=
  [le32 0x04034b50, le16 20, le16 0x0008, le16 m, le16 t, le16 d,
   le32 0, le32 0, le32 0, le16 (file_name.length % 65536), le16 0, file_name]

/-- The successive `write_all` payloads of `write_data_descriptor`. -/
def ddChunks (crc cs us : Nat) : List (List Nat) :=
  [le32 0x08074b50, le32 crc, le64 cs, le64 us]

/-- The successive `write_all` payloads of `write_central_directory_header`
up to and including the file name. -/
def cdhChunks1 (e : CentralDirectoryEntry) : List (List Nat) :=
  [le32 0x02014b50, le16 0x031E, le16 20, le16 0x0008,
   le16 e.compression_method, le16 e.modified_time, le16 e.modified_date,
   le32 e.crc32, le32 (min e.compressed_size 0xFFFFFFFF),
   le32 (min e.uncompressed_size 0xFFFFFFFF), le16 (e.file_name.length % 65536),
   le16 (if needs_zip64 e then 20 else 0), le16 0, le16 0, le16 0,
   le32 (0o644 <<< 16), le32 (min e.local_header_offset 0xFFFFFFFF), e.file_name]

/-- The `write_all` payloads of the ZIP64 extra block of
`write_central_directory_header`. -/
def cdhChunks2 (e : CentralDirectoryEntry) : List (List Nat) :=
  [le16 0x0001, le16 16, le64 e.uncompressed_size, le64 e.compressed_size]

/-- The successive `write_all` payloads of `write_end_of_central_directory`. -/
def eocdChunks (n s o : Nat) : List (List Nat) :=
  [le32 0x06054b50, le16 0, le16 0, le16 n, le16 n,
   le32 (min s 0xFFFFFFFF), le32 (min o 0xFFFFFFFF), le16 0]

/-! Basic lemmas about the writer model. -/

theorem except_bind_ok {ε α : Type} (r : Except ε α) :
    r.bind (fun a => Except.ok a) = r := by
  cases r <;> rfl

theorem except_bind_ok_iff {ε α β : Type} {r : Except ε α} {g : α → Except ε β} {t : β} :
    r.bind g = .ok t ↔ ∃ m, r = .ok m ∧ g m = .ok t := by
  cases r <;> simp [Except.bind]

theorem except_bind_assoc {ε α β γ : Type} (r : Except ε α) (f : α → Except ε β)
    (g : β → Except ε γ) : (r.bind f).bind g = r.bind fun a => (f a).bind g := by
  cases r <;> rfl

theorem writeAll_none (w : W) (bs : List Nat) : writeAll none w bs = .ok (w ++ bs) := rfl

theorem writeSeq_none (L : List (List Nat)) : ∀ w : W,
    writeSeq none w L = .ok (w ++ L.flatten) := by
  induction L with
  | nil => intro w; simp [writeSeq]
  | cons bs rest ih => intro w; simp [writeSeq, writeAll, Except.bind, ih]

theorem simOk_writeAll {b : Nat} {w : W} (bs : List Nat) (h : w.length ≤ b) :
    SimOkG id b (w ++ bs) (writeAll (some b) w bs) := by
  unfold SimOkG writeAll
  by_cases hle : w.length + bs.length ≤ b
  · exact Or.inl ⟨by simp [hle], by simpa using hle⟩
  · exact Or.inr ⟨w, by simp [hle], List.prefix_append w bs, h⟩

theorem simOk_bind {α β : Type} {pa : α → W} {pb : β → W} {b : Nat} {t₁ : α} {t₂ : β}
    {r₁ : Except (ZipErr × W) α} {g : α → Except (ZipErr × W) β}
    (h₁ : SimOkG pa b t₁ r₁) (hpre : pa t₁ <+: pb t₂)
    (hg : (pa t₁).length ≤ b → SimOkG pb b t₂ (g t₁)) :
    SimOkG pb b t₂ (r₁.bind g) := by
  rcases h₁ with ⟨he, hl⟩ | ⟨we, he, hp, hl⟩
  · subst he; exact hg hl
  · subst he; exact Or.inr ⟨we, rfl, hp.trans hpre, hl⟩

theorem writeSeq_budget (L : List (List Nat)) : ∀ (w : W) (b : Nat), w.length ≤ b →
    SimOkG id b (w ++ L.flatten) (writeSeq (some b) w L) := by
  induction L with
  | nil => intro w b h; exact Or.inl ⟨by simp [writeSeq], by simpa using h⟩
  | cons bs rest ih =>
    intro w b h
    rw [writeSeq]
    refine simOk_bind (simOk_writeAll bs h) ?_ ?_
    · show w ++ bs <+: w ++ (bs :: rest).flatten
      rw [List.flatten_cons, ← List.append_assoc]
      exact List.prefix_append _ _
    · intro hlen
      have := ih (w ++ bs) b (by simpa using hlen)
      simpa [List.append_assoc] using this

/-! Equations restating each header-writing chain as a `writeSeq`, and
the bytes each chain appends in an unlimited run. -/

theorem write_local_header_eq (cap : Option Nat) (w : W) (n : List Nat) (m t d : Nat) :
    write_local_header cap w n m t d = writeSeq cap w (lhChunks n m t d) := by
  simp [write_local_header, write_u16, write_u32, writeSeq, lhChunks, except_bind_ok]

theorem lhChunks_flatten (n : List Nat) (m t d : Nat) :
    (lhChunks n m t d).flatten = localHeaderBytes n m t d := by
  simp [lhChunks, localHeaderBytes, List.append_assoc]

theorem write_local_header_none (w : W) (n : List Nat) (m t d : Nat) :
    write_local_header none w n m t d = .ok (w ++ localHeaderBytes n m t d) := by
  rw [write_local_header_eq, writeSeq_none, lhChunks_flatten]

theorem write_data_descriptor_eq (cap : Option Nat) (w : W) (crc cs us : Nat) :
    write_data_descriptor cap w crc cs us = writeSeq cap w (ddChunks crc cs us) := by
  simp [write_data_descriptor, write_u32, write_u64, writeSeq, ddChunks, except_bind_ok]

theorem ddChunks_flatten (crc cs us : Nat) :
    (ddChunks crc cs us).flatten = ddBytes crc cs us := by
  simp [ddChunks, ddBytes, List.append_assoc]

theorem write_data_descriptor_none (w : W) (crc cs us : Nat) :
    write_data_descriptor none w crc cs us = .ok (w ++ ddBytes crc cs us) := by
  rw [write_data_descriptor_eq, writeSeq_none, ddChunks_flatten]

theorem write_central_directory_header_eq (cap : Option Nat) (w : W)
    (e : CentralDirectoryEntry) :
    write_central_directory_header cap w e =
      (writeSeq cap w (cdhChunks1 e)).bind fun w =>
      if needs_zip64 e then writeSeq cap w (cdhChunks2 e) else .ok w := by
  simp [write_central_directory_header, write_u16, write_u32, write_u64, writeSeq,
    cdhChunks1, cdhChunks2, except_bind_ok, except_bind_assoc]

theorem cdhBytes_pos (e : CentralDirectoryEntry) (hz : needs_zip64 e) :
    cdhBytes e = (cdhChunks1 e).flatten ++ (cdhChunks2 e).flatten := by
  simp [cdhBytes, cdhChunks1, cdhChunks2, hz, List.append_assoc]

theorem cdhBytes_neg (e : CentralDirectoryEntry) (hz : ¬ needs_zip64 e) :
    cdhBytes e = (cdhChunks1 e).flatten := by
  have hle : e.compressed_size ≤ 0xFFFFFFFF ∧ e.uncompressed_size ≤ 0xFFFFFFFF ∧
      e.local_header_offset ≤ 0xFFFFFFFF := by
    simpa [needs_zip64, not_or, not_lt] using hz
  simp [cdhBytes, cdhChunks1, hz, min_eq_left hle.1, min_eq_left hle.2.1,
    min_eq_left hle.2.2, List.append_assoc]

theorem write_central_directory_header_none (w : W) (e : CentralDirectoryEntry) :
    write_central_directory_header none w e = .ok (w ++ cdhBytes e) := by
  rw [write_central_directory_header_eq, writeSeq_none]
  by_cases hz : needs_zip64 e
  · simp [hz, Except.bind, writeSeq_none, cdhBytes_pos e hz, List.append_assoc]
  · simp [hz, Except.bind, cdhBytes_neg e hz]

theorem write_end_of_central_directory_eq (cap : Option Nat) (w : W) (n s o : Nat) :
    write_end_of_central_directory cap w n s o = writeSeq cap w (eocdChunks n s o) := by
  simp [write_end_of_central_directory, write_u16, write_u32, writeSeq, eocdChunks,
    except_bind_ok]

theorem eocdChunks_flatten (n s o : Nat) :
    (eocdChunks (n % 65536) s o).flatten = eocdBytes n s o := by
  by_cases hs : s ≤ 0xFFFFFFFF <;> by_cases ho : o ≤ 0xFFFFFFFF <;>
    simp [eocdChunks, eocdBytes, hs, ho, min_eq_left, min_eq_right, le_of_not_le,
      List.append_assoc]

theorem write_end_of_central_directory_none (w : W) (n s o : Nat) :
    write_end_of_central_directory none w (n % 65536) s o = .ok (w ++ eocdBytes n s o) := by
  rw [write_end_of_central_directory_eq, writeSeq_none, eocdChunks_flatten]

/-! The CRC-32 of the source agrees with the reference description and is
insensitive to chunking. -/

theorem crc32_append (a b : List Nat) (cur : Nat) :
    crc32 (a ++ b) cur = crc32 b (crc32 a cur) := by
  simp [crc32, List.foldl_append]

theorem foldl_range_iterate (g : Nat → Nat) : ∀ (n x : Nat),
    (List.range n).foldl (fun c _ => g c) x = g^[n] x := by
  intro n
  induction n with
  | zero => intro x; simp
  | succ k ih =>
    intro x
    rw [List.range_succ, List.foldl_append, Function.iterate_succ_apply']
    simp [ih]

theorem crcByte_eq (cur b : Nat) :
    (List.range 8).foldl
      (fun c _ => if c &&& 1 ≠ 0 then (c >>> 1) ^^^ 0xEDB88320 else c >>> 1)
      (cur ^^^ b) = crcSpecByte cur b := by
  have hstep : (fun c => if c &&& 1 ≠ 0 then (c >>> 1) ^^^ 0xEDB88320 else c >>> 1) =
      crcSpecRound := by
    funext c
    have h1 : c &&& 1 = c % 2 := Nat.and_one_is_mod c
    have h2 : c >>> 1 = c / 2 := Nat.shiftRight_one c
    rw [crcSpecRound, h1, h2]
    rcases Nat.mod_two_eq_zero_or_one c with h | h <;> simp [h]
  rw [crcSpecByte, foldl_range_iterate, hstep]

theorem crc32_eq_specLoop (data : List Nat) : ∀ cur : Nat,
    crc32 data cur = crcSpecLoop data cur := by
  induction data with
  | nil => intro cur; simp [crc32, crcSpecLoop]
  | cons b rest ih =>
    intro cur
    rw [crcSpecLoop, ← crcByte_eq, ← ih]
    simp [crc32]

/-! Characterization of the streaming loops and of the per-file loop in
an unlimited run. -/

theorem localHeaderBytes_length (n : List Nat) (m t d : Nat) :
    (localHeaderBytes n m t d).length = 30 + n.length := by
  simp [localHeaderBytes, le16, le32]
  try omega

theorem streamStore_none (chunks : List (List Nat)) : ∀ (w : W) (crc us cs : Nat),
    streamStore none w chunks crc us cs =
      .ok (w ++ chunks.flatten, crc32 chunks.flatten crc,
           us + chunks.flatten.length, cs + chunks.flatten.length) := by
  induction chunks with
  | nil => intro w crc us cs; simp [streamStore, crc32]
  | cons c rest ih =>
    intro w crc us cs
    rw [streamStore]
    simp only [writeAll, Except.bind]
    rw [ih]
    simp [crc32_append, List.append_assoc, Nat.add_assoc]

theorem streamDeflateAcc_eq (chunks : List (List Nat)) : ∀ crc us : Nat,
    streamDeflateAcc chunks crc us =
      (crc32 chunks.flatten crc, us + chunks.flatten.length) := by
  induction chunks with
  | nil => intro crc us; simp [streamDeflateAcc, crc32]
  | cons c rest ih =>
    intro crc us
    rw [streamDeflateAcc, ih]
    simp [crc32_append, Nat.add_assoc]

theorem processEntry_char (comp : Compression) (d : List Nat → List Nat) (w : W)
    (off : Nat) (cdes : List CentralDirectoryEntry) (f : FileEntry)
    (chunks : List (List Nat)) (hf : f.source_path = .regular chunks) :
    processEntry none comp d w off cdes f =
      .ok (w ++ entryBytesOf comp d w.length off f,
           off + entryDelta comp d w.length off f,
           cdes ++ [entryCdeOf comp d w.length off f]) := by
  cases comp with
  | Store =>
    simp only [processEntry, hf, dos_datetime, methodCode]
    rw [write_local_header_none]
    simp only [Except.bind]
    rw [streamStore_none]
    simp only [Except.bind]
    rw [write_data_descriptor_none]
    simp only [Except.bind]
    simp [entryBytesOf, entryDelta, entryCdeOf, entryCsize, payloadBytes, contentOf, hf,
      methodCode, crc32_eq_specLoop, crc32_spec, List.append_assoc, Nat.add_assoc]
  | Deflate =>
    simp only [processEntry, hf, dos_datetime, methodCode]
    rw [write_local_header_none]
    simp only [Except.bind]
    rw [streamDeflateAcc_eq]
    simp only [writeAll, Except.bind]
    rw [write_data_descriptor_none]
    simp only [Except.bind]
    have hw : ((w ++ localHeaderBytes f.archive_path 8 0 33 ++ d chunks.flatten).length : Int)
        = ((w.length + 30 + f.archive_path.length + (d chunks.flatten).length : Nat) : Int) := by
      simp [List.length_append, localHeaderBytes_length]
      ring
    rw [hw]
    simp [entryBytesOf, entryDelta, entryCdeOf, entryCsize, payloadBytes, contentOf, hf,
      methodCode, crc32_eq_specLoop, crc32_spec, List.append_assoc, Nat.add_assoc]
    refine ⟨?_, ?_⟩
    · congr 4
      ring
    · congr 2
      ring

theorem processEntries_char (comp : Compression) (d : List Nat → List Nat)
    (files : List FileEntry) : ∀ (w : W) (off : Nat) (cdes : List CentralDirectoryEntry),
    allRegular files →
    processEntries none comp d w off cdes files =
      .ok (w ++ (entriesScan comp d w.length off files).1,
           (entriesScan comp d w.length off files).2.1,
           cdes ++ (entriesScan comp d w.length off files).2.2) := by
  induction files with
  | nil => intro w off cdes _; simp [processEntries, entriesScan]
  | cons f rest ih =>
    intro w off cdes hall
    obtain ⟨chunks, hf⟩ := hall f (List.mem_cons_self f rest)
    rw [processEntries, processEntry_char comp d w off cdes f chunks hf]
    simp only [Except.bind]
    rw [ih (w ++ entryBytesOf comp d w.length off f)
      (off + entryDelta comp d w.length off f) (cdes ++ [entryCdeOf comp d w.length off f])
      (fun g hg => hall g (List.mem_cons_of_mem f hg))]
    simp [entriesScan, List.length_append, List.append_assoc]

theorem processEntries_ok_allRegular (comp : Compression) (d : List Nat → List Nat)
    (files : List FileEntry) : ∀ (w : W) (off : Nat) (cdes : List CentralDirectoryEntry)
    (t : W × Nat × List CentralDirectoryEntry),
    processEntries none comp d w off cdes files = .ok t → allRegular files := by
  induction files with
  | nil => intro _ _ _ _ _ f hfmem; exact absurd hfmem (List.not_mem_nil f)
  | cons f rest ih =>
    intro w off cdes t h
    rw [processEntries, except_bind_ok_iff] at h
    obtain ⟨m, hm, hrest⟩ := h
    intro g hg
    rcases List.mem_cons.mp hg with rfl | hg'
    · cases hsp : g.source_path with
      | notFound => simp [processEntry, hsp] at hm
      | notRegularFile => simp [processEntry, hsp] at hm
      | regular chunks => exact ⟨chunks, rfl⟩
    · exact ih m.1 m.2.1 m.2.2 t hrest g hg'

theorem entriesScan_crc_map (comp : Compression) (d : List Nat → List Nat)
    (files : List FileEntry) : ∀ wlen off : Nat,
    ((entriesScan comp d wlen off files).2.2).map (fun e => e.crc32)
      = files.map (fun f => crc32_spec (contentOf f.source_path)) := by
  induction files with
  | nil => intro wlen off; simp [entriesScan]
  | cons f rest ih => intro wlen off; simp [entriesScan, entryCdeOf, ih]

theorem entriesScan_csize_map (d : List Nat → List Nat) (files : List FileEntry) :
    ∀ wlen off : Nat,
    ((entriesScan .Store d wlen off files).2.2).map (fun e => e.compressed_size)
      = files.map (fun f => (contentOf f.source_path).length) := by
  induction files with
  | nil => intro wlen off; simp [entriesScan]
  | cons f rest ih => intro wlen off; simp [entriesScan, entryCdeOf, entryCsize, ih]

theorem entriesScan_usize_map (comp : Compression) (d : List Nat → List Nat)
    (files : List FileEntry) : ∀ wlen off : Nat,
    ((entriesScan comp d wlen off files).2.2).map (fun e => e.uncompressed_size)
      = files.map (fun f => (contentOf f.source_path).length) := by
  induction files with
  | nil => intro wlen off; simp [entriesScan]
  | cons f rest ih => intro wlen off; simp [entriesScan, entryCdeOf, ih]

/-! Capacity-limited runs simulate unlimited runs: every writing stage
either produces the same bytes (when they fit the capacity) or stops with
a write error whose accepted bytes are a prefix of the unlimited output. -/

theorem write_local_header_budget (w : W) (n : List Nat) (m t d b : Nat)
    (h : w.length ≤ b) :
    SimOkG id b (w ++ localHeaderBytes n m t d) (write_local_header (some b) w n m t d) := by
  rw [write_local_header_eq, ← lhChunks_flatten n m t d]
  exact writeSeq_budget _ w b h

theorem write_data_descriptor_budget (w : W) (crc cs us b : Nat) (h : w.length ≤ b) :
    SimOkG id b (w ++ ddBytes crc cs us) (write_data_descriptor (some b) w crc cs us) := by
  rw [write_data_descriptor_eq, ← ddChunks_flatten crc cs us]
  exact writeSeq_budget _ w b h

theorem write_central_directory_header_budget (w : W) (e : CentralDirectoryEntry) (b : Nat)
    (h : w.length ≤ b) :
    SimOkG id b (w ++ cdhBytes e) (write_central_directory_header (some b) w e) := by
  rw [write_central_directory_header_eq]
  by_cases hz : needs_zip64 e
  · rw [cdhBytes_pos e hz]
    refine simOk_bind (writeSeq_budget (cdhChunks1 e) w b h) ?_ ?_
    · show w ++ (cdhChunks1 e).flatten <+:
        w ++ ((cdhChunks1 e).flatten ++ (cdhChunks2 e).flatten)
      rw [← List.append_assoc]
      exact List.prefix_append _ _
    · intro hlen
      simp only [hz, if_true]
      have := writeSeq_budget (cdhChunks2 e) (w ++ (cdhChunks1 e).flatten) b
        (by simpa using hlen)
      simpa [List.append_assoc] using this
  · rw [cdhBytes_neg e hz]
    refine simOk_bind (writeSeq_budget (cdhChunks1 e) w b h) ?_ ?_
    · exact List.prefix_rfl
    · intro hlen
      simp only [hz, if_false]
      exact Or.inl ⟨rfl, by simpa using hlen⟩

theorem streamStore_budget (chunks : List (List Nat)) : ∀ (w : W) (crc us cs b : Nat),
    w.length ≤ b →
    SimOkG (fun t => t.1) b
      (w ++ chunks.flatten, crc32 chunks.flatten crc, us + chunks.flatten.length,
        cs + chunks.flatten.length)
      (streamStore (some b) w chunks crc us cs) := by
  induction chunks with
  | nil =>
    intro w crc us cs b h
    exact Or.inl ⟨by simp [streamStore, crc32], by simpa using h⟩
  | cons c rest ih =>
    intro w crc us cs b h
    rw [streamStore]
    refine simOk_bind (simOk_writeAll c h) ?_ ?_
    · show w ++ c <+: w ++ (c :: rest).flatten
      rw [List.flatten_cons, ← List.append_assoc]
      exact List.prefix_append _ _
    · intro hlen
      have := ih (w ++ c) (crc32 c crc) (us + c.length) (cs + c.length) b (by simpa using hlen)
      simpa [crc32_append, List.append_assoc, Nat.add_assoc] using this

theorem entryBytesOf_decomp (comp : Compression) (d : List Nat → List Nat)
    (wlen off : Nat) (f : FileEntry) (chunks : List (List Nat))
    (hsp : f.source_path = .regular chunks) :
    entryBytesOf comp d wlen off f =
      localHeaderBytes f.archive_path (methodCode comp) 0 0x21 ++
      (payloadBytes comp d chunks.flatten ++
        ddBytes (crc32_spec chunks.flatten)
          (entryCsize comp d wlen off f.archive_path.length chunks.flatten)
          chunks.flatten.length) := by
  simp [entryBytesOf, contentOf, hsp, List.append_assoc]

theorem processEntry_budget (comp : Compression) (d : List Nat → List Nat) (w : W)
    (off : Nat) (cdes : List CentralDirectoryEntry) (f : FileEntry) (b : Nat)
    (t : W × Nat × List CentralDirectoryEntry)
    (hnone : processEntry none comp d w off cdes f = .ok t) (h : w.length ≤ b) :
    SimOkG (fun t => t.1) b t (processEntry (some b) comp d w off cdes f) := by
  cases hsp : f.source_path with
  | notFound => simp [processEntry, hsp] at hnone
  | notRegularFile => simp [processEntry, hsp] at hnone
  | regular chunks =>
    rw [processEntry_char comp d w off cdes f chunks hsp] at hnone
    have ht := (Except.ok.inj hnone).symm
    subst ht
    cases comp with
    | Store =>
      simp only [processEntry, hsp, dos_datetime, methodCode]
      refine simOk_bind (write_local_header_budget w f.archive_path 0 0 0x21 b h) ?_ ?_
      · show w ++ localHeaderBytes f.archive_path 0 0 0x21 <+:
          w ++ entryBytesOf .Store d w.length off f
        rw [entryBytesOf_decomp .Store d w.length off f chunks hsp, methodCode,
          ← List.append_assoc]
        exact List.prefix_append _ _
      · intro hlen
        refine simOk_bind
          (streamStore_budget chunks (w ++ localHeaderBytes f.archive_path 0 0 0x21)
            0xFFFFFFFF 0 0 b (by simpa using hlen)) ?_ ?_
        · show (w ++ localHeaderBytes f.archive_path 0 0 0x21) ++ chunks.flatten <+:
            w ++ entryBytesOf .Store d w.length off f
          rw [entryBytesOf_decomp .Store d w.length off f chunks hsp, methodCode]
          simp only [payloadBytes, ← List.append_assoc]
          exact (List.prefix_append _ _).trans (by rw [List.append_assoc _ _ (ddBytes _ _ _)])
        · intro hlen2
          refine simOk_bind
            (write_data_descriptor_budget
              ((w ++ localHeaderBytes f.archive_path 0 0 0x21) ++ chunks.flatten)
              (crc32 chunks.flatten 0xFFFFFFFF ^^^ 0xFFFFFFFF)
              (0 + chunks.flatten.length) (0 + chunks.flatten.length) b
              (by simpa using hlen2)) ?_ ?_
          · show ((w ++ localHeaderBytes f.archive_path 0 0 0x21) ++ chunks.flatten) ++
              ddBytes (crc32 chunks.flatten 0xFFFFFFFF ^^^ 0xFFFFFFFF)
                (0 + chunks.flatten.length) (0 + chunks.flatten.length) <+:
              w ++ entryBytesOf .Store d w.length off f
            rw [entryBytesOf_decomp .Store d w.length off f chunks hsp, methodCode]
            simp [payloadBytes, entryCsize, crc32_eq_specLoop, crc32_spec,
              List.append_assoc]
          · intro hlen3
            refine Or.inl ⟨?_, ?_⟩
            · simp [entryBytesOf_decomp .Store d w.length off f chunks hsp, methodCode,
                entryDelta, entryCdeOf, entryCsize, payloadBytes, contentOf, hsp,
                crc32_eq_specLoop, crc32_spec, List.append_assoc, Nat.add_assoc]
            · have : w ++ entryBytesOf .Store d w.length off f =
                  ((w ++ localHeaderBytes f.archive_path 0 0 0x21) ++ chunks.flatten) ++
                  ddBytes (crc32 chunks.flatten 0xFFFFFFFF ^^^ 0xFFFFFFFF)
                    (0 + chunks.flatten.length) (0 + chunks.flatten.length) := by
                rw [entryBytesOf_decomp .Store d w.length off f chunks hsp, methodCode]
                simp [payloadBytes, entryCsize, crc32_eq_specLoop, crc32_spec,
                  List.append_assoc]
              rw [this]
              simpa using hlen3
    | Deflate =>
      simp only [processEntry, hsp, dos_datetime, methodCode]
      refine simOk_bind (write_local_header_budget w f.archive_path 8 0 0x21 b h) ?_ ?_
      · show w ++ localHeaderBytes f.archive_path 8 0 0x21 <+:
          w ++ entryBytesOf .Deflate d w.length off f
        rw [entryBytesOf_decomp .Deflate d w.length off f chunks hsp, methodCode,
          ← List.append_assoc]
        exact List.prefix_append _ _
      · intro hlen
        rw [except_bind_assoc]
        refine simOk_bind
          (@simOk_writeAll b (w ++ localHeaderBytes f.archive_path 8 0 0x21)
            (d chunks.flatten) (by simpa using hlen)) ?_ ?_
        · show (w ++ localHeaderBytes f.archive_path 8 0 0x21) ++ d chunks.flatten <+:
            w ++ entryBytesOf .Deflate d w.length off f
          rw [entryBytesOf_decomp .Deflate d w.length off f chunks hsp, methodCode]
          simp only [payloadBytes, ← List.append_assoc]
          exact (List.prefix_append _ _).trans (by rw [List.append_assoc _ _ (ddBytes _ _ _)])
        · intro hlen2
          simp only [Except.bind]
          refine simOk_bind
            (write_data_descriptor_budget
              ((w ++ localHeaderBytes f.archive_path 8 0 0x21) ++ d chunks.flatten)
              ((streamDeflateAcc chunks 0xFFFFFFFF 0).1 ^^^ 0xFFFFFFFF)
              ((((((w ++ localHeaderBytes f.archive_path 8 0 0x21) ++ d chunks.flatten).length : Int)
                - ((off + 30 + f.archive_path.length : Nat) : Int) - 30 -
                (f.archive_path.length : Int)) % (2 : Int) ^ 64).toNat)
              (streamDeflateAcc chunks 0xFFFFFFFF 0).2 b (by simpa using hlen2)) ?_ ?_
          · show ((w ++ localHeaderBytes f.archive_path 8 0 0x21) ++ d chunks.flatten) ++
              ddBytes _ _ _ <+: w ++ entryBytesOf .Deflate d w.length off f
            rw [entryBytesOf_decomp .Deflate d w.length off f chunks hsp, methodCode]
            have hw : ((w ++ localHeaderBytes f.archive_path 8 0 0x21 ++
                d chunks.flatten).length : Int)
                = ((w.length + 30 + f.archive_path.length +
                    (d chunks.flatten).length : Nat) : Int) := by
              simp [List.length_append, localHeaderBytes_length]
              ring
            rw [hw]
            simp [payloadBytes, entryCsize, streamDeflateAcc_eq, crc32_eq_specLoop,
              crc32_spec, List.append_assoc]
          · intro hlen3
            refine Or.inl ⟨?_, ?_⟩
            · have hw : ((w ++ localHeaderBytes f.archive_path 8 0 0x21 ++
                  d chunks.flatten).length : Int)
                  = ((w.length + 30 + f.archive_path.length +
                      (d chunks.flatten).length : Nat) : Int) := by
                simp [List.length_append, localHeaderBytes_length]
                ring
              rw [hw]
              simp [entryBytesOf_decomp .Deflate d w.length off f chunks hsp, methodCode,
                entryDelta, entryCdeOf, entryCsize, payloadBytes, contentOf, hsp,
                streamDeflateAcc_eq, crc32_eq_specLoop, crc32_spec, List.append_assoc,
                Nat.add_assoc]
              constructor
              · congr 4
                ring
              · congr 2
                ring
            · simp only [id] at hlen3
              simp [entryBytesOf_decomp .Deflate d w.length off f chunks hsp, methodCode,
                payloadBytes, ddBytes, le32, le64, localHeaderBytes_length,
                List.length_append]
              simp [ddBytes, le32, le64, localHeaderBytes_length, List.length_append]
                at hlen3
              omega

theorem processEntries_mono (comp : Compression) (d : List Nat → List Nat)
    (files : List FileEntry) : ∀ (w : W) (off : Nat) (cdes : List CentralDirectoryEntry)
    (t : W × Nat × List CentralDirectoryEntry),
    processEntries none comp d w off cdes files = .ok t → w <+: t.1 := by
  induction files with
  | nil =>
    intro w off cdes t h
    rw [processEntries] at h
    rw [← Except.ok.inj h]
  | cons f rest ih =>
    intro w off cdes t h
    rw [processEntries, except_bind_ok_iff] at h
    obtain ⟨m, hm, hrest⟩ := h
    have hw : w <+: m.1 := by
      cases hsp : f.source_path with
      | notFound => simp [processEntry, hsp] at hm
      | notRegularFile => simp [processEntry, hsp] at hm
      | regular chunks =>
        rw [processEntry_char comp d w off cdes f chunks hsp] at hm
        rw [← Except.ok.inj hm]
        exact List.prefix_append _ _
    exact hw.trans (ih m.1 m.2.1 m.2.2 t hrest)

theorem processEntries_budget (comp : Compression) (d : List Nat → List Nat)
    (files : List FileEntry) : ∀ (w : W) (off : Nat) (cdes : List CentralDirectoryEntry)
    (b : Nat) (t : W × Nat × List CentralDirectoryEntry),
    processEntries none comp d w off cdes files = .ok t → w.length ≤ b →
    SimOkG (fun t => t.1) b t (processEntries (some b) comp d w off cdes files) := by
  induction files with
  | nil =>
    intro w off cdes b t h hb
    rw [processEntries] at h
    rw [processEntries, ← Except.ok.inj h]
    exact Or.inl ⟨rfl, by simpa using hb⟩
  | cons f rest ih =>
    intro w off cdes b t h hb
    rw [processEntries, except_bind_ok_iff] at h
    obtain ⟨m, hm, hrest⟩ := h
    rw [processEntries]
    refine simOk_bind (processEntry_budget comp d w off cdes f b m hm hb) ?_ ?_
    · exact processEntries_mono comp d rest m.1 m.2.1 m.2.2 t hrest
    · intro hlen
      exact ih m.1 m.2.1 m.2.2 b t hrest (by simpa using hlen)

theorem writeCentralDirectory_mono (cdes : List CentralDirectoryEntry) :
    ∀ (w : W) (off : Nat) (t : W × Nat),
    writeCentralDirectory none w off cdes = .ok t → w <+: t.1 := by
  induction cdes with
  | nil =>
    intro w off t h
    rw [writeCentralDirectory] at h
    rw [← Except.ok.inj h]
  | cons e rest ih =>
    intro w off t h
    rw [writeCentralDirectory, except_bind_ok_iff] at h
    obtain ⟨m, hm, hrest⟩ := h
    rw [write_central_directory_header_none] at hm
    have hmw : m = w ++ cdhBytes e := (Except.ok.inj hm).symm
    subst hmw
    exact (List.prefix_append _ _).trans (ih _ _ t hrest)

theorem writeCentralDirectory_budget (cdes : List CentralDirectoryEntry) :
    ∀ (w : W) (off b : Nat) (t : W × Nat),
    writeCentralDirectory none w off cdes = .ok t → w.length ≤ b →
    SimOkG (fun t => t.1) b t (writeCentralDirectory (some b) w off cdes) := by
  induction cdes with
  | nil =>
    intro w off b t h hb
    rw [writeCentralDirectory] at h
    rw [writeCentralDirectory, ← Except.ok.inj h]
    exact Or.inl ⟨rfl, by simpa using hb⟩
  | cons e rest ih =>
    intro w off b t h hb
    rw [writeCentralDirectory, except_bind_ok_iff] at h
    obtain ⟨m, hm, hrest⟩ := h
    rw [write_central_directory_header_none] at hm
    have hmw : m = w ++ cdhBytes e := (Except.ok.inj hm).symm
    subst hmw
    rw [writeCentralDirectory]
    refine simOk_bind (write_central_directory_header_budget w e b hb) ?_ ?_
    · exact writeCentralDirectory_mono rest _ _ t hrest
    · intro hlen
      exact ih _ _ b t hrest (by simpa using hlen)

theorem package_budget (comp : Compression) (d : List Nat → List Nat)
    (files : List FileEntry) (b : Nat) (wFull : W)
    (hfull : package_zip_streaming none comp d files = .ok wFull) :
    SimOkG id b wFull (package_zip_streaming (some b) comp d files) := by
  rw [package_zip_streaming, except_bind_ok_iff] at hfull
  obtain ⟨st, hst, h2⟩ := hfull
  rw [except_bind_ok_iff] at h2
  obtain ⟨st2, hst2, h3⟩ := h2
  have h23 : st2.1 <+: wFull := by
    rw [write_end_of_central_directory_eq, writeSeq_none] at h3
    rw [← Except.ok.inj h3]
    exact List.prefix_append _ _
  rw [package_zip_streaming]
  refine simOk_bind (processEntries_budget comp d files [] 0 [] b st hst (by simp)) ?_ ?_
  · exact (writeCentralDirectory_mono st.2.2 st.1 st.2.1 st2 hst2).trans h23
  · intro hlen
    refine simOk_bind
      (writeCentralDirectory_budget st.2.2 st.1 st.2.1 b st2 hst2 (by simpa using hlen))
      ?_ ?_
    · exact h23
    · intro hlen2
      have hfl : wFull = st2.1 ++
          (eocdChunks (st.2.2.length % 65536) (st2.2 - st.2.1) st.2.1).flatten := by
        rw [write_end_of_central_directory_eq, writeSeq_none] at h3
        exact (Except.ok.inj h3).symm
      rw [write_end_of_central_directory_eq, hfl]
      exact writeSeq_budget _ st2.1 b (by simpa using hlen2)

theorem processEntries_append (cap : Option Nat) (comp : Compression)
    (d : List Nat → List Nat) (l₁ l₂ : List FileEntry) :
    ∀ (w : W) (off : Nat) (cdes : List CentralDirectoryEntry),
    processEntries cap comp d w off cdes (l₁ ++ l₂) =
      (processEntries cap comp d w off cdes l₁).bind fun st =>
        processEntries cap comp d st.1 st.2.1 st.2.2 l₂ := by
  induction l₁ with
  | nil => intro w off cdes; simp [processEntries, Except.bind]
  | cons f rest ih =>
    intro w off cdes
    simp only [List.cons_append, processEntries, except_bind_assoc]
    cases processEntry cap comp d w off cdes f with
    | ok st => simp [Except.bind, ih]
    | error err => simp [Except.bind]

/-! Claim theorems. -/

/-- C9: `package_zip_streaming` applied to an empty entry list succeeds
and writes exactly one 22-byte end-of-central-directory record and
nothing else: signature 0x06054b50, disk fields 0, both entry counts 0,
directory size 0, directory offset 0, comment length 0 (little-endian). -/
theorem empty_archive_terminator_only (comp : Compression) (d : List Nat → List Nat) :
    package_zip_streaming none comp d [] =
      .ok [0x50, 0x4b, 0x05, 0x06, 0, 0, 0, 0, 0, 0, 0, 0,
           0, 0, 0, 0, 0, 0, 0, 0, 0, 0] := rfl

set_option maxRecDepth 8192 in
/-- C1 (code bug): with two empty one-byte-name files under `Store`, the
per-file loop records local-header offsets `[0, 51]` although the second
local header actually starts at byte 55 of the stream, and the full run's
terminator holds directory offset 102 although the first central
directory record actually starts at byte 110: `write_data_descriptor`
emits 24 bytes while the offset counter adds only 20 per entry
(zip.rs line 408, whose comment asserts the descriptor size). -/
theorem offset_counter_undercounts_descriptor :
    ((okSt (processEntries none .Store (fun x => x) [] 0 [] [entryA, entryB])).2.2.map
        (fun e => e.local_header_offset) = [0, 51]) ∧
    (((okSt (processEntries none .Store (fun x => x) [] 0 [] [entryA, entryB])).1.drop 55).take 4
        = [0x50, 0x4b, 0x03, 0x04]) ∧
    (((okSt (processEntries none .Store (fun x => x) [] 0 [] [entryA, entryB])).1.drop 51).take 4
        ≠ [0x50, 0x4b, 0x03, 0x04]) ∧
    ((bytesOf (package_zip_streaming none .Store (fun x => x) [entryA, entryB])).length = 226) ∧
    (((bytesOf (package_zip_streaming none .Store (fun x => x) [entryA, entryB])).drop 220).take 4
        = [102, 0, 0, 0]) ∧
    (((bytesOf (package_zip_streaming none .Store (fun x => x) [entryA, entryB])).drop 110).take 4
        = [0x50, 0x4b, 0x01, 0x02]) ∧
    (((bytesOf (package_zip_streaming none .Store (fun x => x) [entryA, entryB])).drop 102).take 4
        ≠ [0x50, 0x4b, 0x01, 0x02]) := by
  decide

/-- C2: for every successful run of the per-file loop, the CRC-32 stored
in each entry's directory record equals the reference reflected CRC-32
(polynomial 0xEDB88320, initial register 0xFFFFFFFF, complemented output)
of that entry's complete content, independent of how it was chunked, and
the bytes written are exactly the per-entry streams whose trailing data
descriptors carry that same reference CRC-32 (`entryBytesOf` embeds
`ddBytes (crc32_spec ...)`). -/
theorem crc_recorded_matches_reference (comp : Compression) (d : List Nat → List Nat)
    (files : List FileEntry) (w : W) (off : Nat) (cdes : List CentralDirectoryEntry)
    (h : processEntries none comp d [] 0 [] files = .ok (w, off, cdes)) :
    cdes.map (fun e => e.crc32) =
      files.map (fun f => crc32_spec (contentOf f.source_path)) ∧
    w = (entriesScan comp d 0 0 files).1 := by
  have hall := processEntries_ok_allRegular comp d files [] 0 [] (w, off, cdes) h
  rw [processEntries_char comp d files [] 0 [] hall] at h
  have ht := Except.ok.inj h
  have hw : w = (entriesScan comp d ([] : W).length 0 files).1 :=
    (congrArg (fun t => t.1) ht).symm.trans (by simp)
  have hcdes : cdes = (entriesScan comp d ([] : W).length 0 files).2.2 :=
    (congrArg (fun t => t.2.2) ht).symm.trans (by simp)
  constructor
  · rw [hcdes]
    exact entriesScan_crc_map comp d files ([] : W).length 0
  · simpa using hw

/-- C2 witness: the single three-byte entry read in chunks `[1,2]`,`[3]`. -/
theorem crc_recorded_matches_reference_witness :
    (processEntries none .Store (fun x => x) [] 0 [] [entryData] =
      .ok ((okSt (processEntries none .Store (fun x => x) [] 0 [] [entryData])).1,
           (okSt (processEntries none .Store (fun x => x) [] 0 [] [entryData])).2.1,
           (okSt (processEntries none .Store (fun x => x) [] 0 [] [entryData])).2.2)) ∧
    ((okSt (processEntries none .Store (fun x => x) [] 0 [] [entryData])).2.2.map
        (fun e => e.crc32) =
      [entryData].map (fun f => crc32_spec (contentOf f.source_path)) ∧
     (okSt (processEntries none .Store (fun x => x) [] 0 [] [entryData])).1 =
      (entriesScan .Store (fun x => x) 0 0 [entryData]).1) :=
  ⟨rfl, crc_recorded_matches_reference .Store (fun x => x) [entryData]
    (okSt (processEntries none .Store (fun x => x) [] 0 [] [entryData])).1
    (okSt (processEntries none .Store (fun x => x) [] 0 [] [entryData])).2.1
    (okSt (processEntries none .Store (fun x => x) [] 0 [] [entryData])).2.2 rfl⟩

/-- C10: for every successful `Store` run of the per-file loop, each
directory record's compressed and uncompressed sizes both equal the
number of bytes read from that entry's source, and the emitted bytes are
exactly the per-entry streams whose data descriptors carry those same two
equal sizes (`entryBytesOf` with `entryCsize .Store` = content length). -/
theorem store_sizes_equal_bytes_read (d : List Nat → List Nat)
    (files : List FileEntry) (w : W) (off : Nat) (cdes : List CentralDirectoryEntry)
    (h : processEntries none .Store d [] 0 [] files = .ok (w, off, cdes)) :
    cdes.map (fun e => e.compressed_size) =
      files.map (fun f => (contentOf f.source_path).length) ∧
    cdes.map (fun e => e.uncompressed_size) =
      files.map (fun f => (contentOf f.source_path).length) ∧
    w = (entriesScan .Store d 0 0 files).1 := by
  have hall := processEntries_ok_allRegular .Store d files [] 0 [] (w, off, cdes) h
  rw [processEntries_char .Store d files [] 0 [] hall] at h
  have ht := Except.ok.inj h
  have hw : w = (entriesScan .Store d ([] : W).length 0 files).1 :=
    (congrArg (fun t => t.1) ht).symm.trans (by simp)
  have hcdes : cdes = (entriesScan .Store d ([] : W).length 0 files).2.2 :=
    (congrArg (fun t => t.2.2) ht).symm.trans (by simp)
  refine ⟨?_, ?_, ?_⟩
  · rw [hcdes]
    exact entriesScan_csize_map d files ([] : W).length 0
  · rw [hcdes]
    exact entriesScan_usize_map .Store d files ([] : W).length 0
  · simpa using hw

/-- C10 witness: the single three-byte entry read in two chunks. -/
theorem store_sizes_equal_bytes_read_witness :
    (processEntries none .Store (fun x => x) [] 0 [] [entryData] =
      .ok ((okSt (processEntries none .Store (fun x => x) [] 0 [] [entryData])).1,
           (okSt (processEntries none .Store (fun x => x) [] 0 [] [entryData])).2.1,
           (okSt (processEntries none .Store (fun x => x) [] 0 [] [entryData])).2.2)) ∧
    ((okSt (processEntries none .Store (fun x => x) [] 0 [] [entryData])).2.2.map
        (fun e => e.compressed_size) =
      [entryData].map (fun f => (contentOf f.source_path).length) ∧
     (okSt (processEntries none .Store (fun x => x) [] 0 [] [entryData])).2.2.map
        (fun e => e.uncompressed_size) =
      [entryData].map (fun f => (contentOf f.source_path).length) ∧
     (okSt (processEntries none .Store (fun x => x) [] 0 [] [entryData])).1 =
      (entriesScan .Store (fun x => x) 0 0 [entryData]).1) :=
  ⟨rfl, store_sizes_equal_bytes_read (fun x => x) [entryData]
    (okSt (processEntries none .Store (fun x => x) [] 0 [] [entryData])).1
    (okSt (processEntries none .Store (fun x => x) [] 0 [] [entryData])).2.1
    (okSt (processEntries none .Store (fun x => x) [] 0 [] [entryData])).2.2 rfl⟩

/-- C6: if the entries before `bad` all process successfully and `bad`'s
source is missing (respectively not a regular file), the whole run fails
with the not-found (respectively invalid-input) error carrying exactly
the bytes of the preceding entries: no byte of `bad`, of any later entry,
of any directory record, or of the terminator is written. -/
theorem missing_source_fails_fast (comp : Compression) (d : List Nat → List Nat)
    (pre : List FileEntry) (bad : FileEntry) (post : List FileEntry)
    (st : W × Nat × List CentralDirectoryEntry)
    (h : processEntries none comp d [] 0 [] pre = .ok st) :
    (bad.source_path = .notFound →
      package_zip_streaming none comp d (pre ++ bad :: post) =
        .error (.sourceNotFound, st.1)) ∧
    (bad.source_path = .notRegularFile →
      package_zip_streaming none comp d (pre ++ bad :: post) =
        .error (.sourceNotRegularFile, st.1)) := by
  constructor
  · intro hb
    rw [package_zip_streaming, processEntries_append, h]
    simp only [Except.bind]
    rw [processEntries]
    simp [processEntry, hb, Except.bind]
  · intro hb
    rw [package_zip_streaming, processEntries_append, h]
    simp only [Except.bind]
    rw [processEntries]
    simp [processEntry, hb, Except.bind]

/-- C6 witness: one good entry, then a missing source, then another
entry; only the good entry's 55 bytes are emitted. -/
theorem missing_source_fails_fast_witness :
    (processEntries none .Store (fun x => x) [] 0 [] [entryA] =
      .ok (okSt (processEntries none .Store (fun x => x) [] 0 [] [entryA]))) ∧
    ((entryMissing.source_path = .notFound →
      package_zip_streaming none .Store (fun x => x) ([entryA] ++ entryMissing :: [entryData]) =
        .error (.sourceNotFound,
          (okSt (processEntries none .Store (fun x => x) [] 0 [] [entryA])).1)) ∧
     (entryMissing.source_path = .notRegularFile →
      package_zip_streaming none .Store (fun x => x) ([entryA] ++ entryMissing :: [entryData]) =
        .error (.sourceNotRegularFile,
          (okSt (processEntries none .Store (fun x => x) [] 0 [] [entryA])).1))) :=
  ⟨rfl, missing_source_fails_fast .Store (fun x => x) [entryA] entryMissing [entryData]
    (okSt (processEntries none .Store (fun x => x) [] 0 [] [entryA])) rfl⟩

/-- C3: if a run that would succeed unhindered is driven against a
writer that fails at some point (capacity `b`), `package_zip_streaming`
returns the write error, and the bytes accepted at the moment of failure
are a prefix of the successful stream of size at most `b`: nothing — no
chunk of a later entry, no directory record, no terminator — is emitted
after the failing write. -/
theorem write_failure_aborts_immediately (comp : Compression) (d : List Nat → List Nat)
    (files : List FileEntry) (b : Nat) (wFull : W) (e : ZipErr) (wErr : W)
    (hfull : package_zip_streaming none comp d files = .ok wFull)
    (herr : package_zip_streaming (some b) comp d files = .error (e, wErr)) :
    e = .sinkWriteError ∧ wErr <+: wFull ∧ wErr.length ≤ b := by
  rcases package_budget comp d files b wFull hfull with ⟨hok, _⟩ | ⟨we, heq, hp, hl⟩
  · rw [herr] at hok
    exact absurd hok (by simp)
  · rw [herr] at heq
    have hpair : (e, wErr) = ((ZipErr.sinkWriteError : ZipErr), we) := Except.error.inj heq
    have he : e = ZipErr.sinkWriteError := congrArg Prod.fst hpair
    have hwe : wErr = we := congrArg Prod.snd hpair
    subst hwe
    exact ⟨he, hp, hl⟩

/-- C3 witness: one empty entry, capacity 60; the run fails inside the
central directory record having accepted 59 of the 124 bytes. -/
theorem write_failure_aborts_immediately_witness :
    (package_zip_streaming none .Store (fun x => x) [entryA] =
      .ok (bytesOf (package_zip_streaming none .Store (fun x => x) [entryA]))) ∧
    (package_zip_streaming (some 60) .Store (fun x => x) [entryA] =
      .error (.sinkWriteError,
        bytesOf (package_zip_streaming (some 60) .Store (fun x => x) [entryA]))) ∧
    (ZipErr.sinkWriteError = ZipErr.sinkWriteError ∧
      bytesOf (package_zip_streaming (some 60) .Store (fun x => x) [entryA]) <+:
        bytesOf (package_zip_streaming none .Store (fun x => x) [entryA]) ∧
      (bytesOf (package_zip_streaming (some 60) .Store (fun x => x) [entryA])).length ≤ 60) :=
  ⟨rfl, rfl, write_failure_aborts_immediately .Store (fun x => x) [entryA] 60
    (bytesOf (package_zip_streaming none .Store (fun x => x) [entryA]))
    .sinkWriteError
    (bytesOf (package_zip_streaming (some 60) .Store (fun x => x) [entryA])) rfl rfl⟩

/-- C4: the bytes of every central directory record follow the claimed
layout `cdhBytes`: when compressed size, uncompressed size, or local
offset exceeds 0xFFFFFFFF, the three 32-bit fields are written capped at
the all-ones sentinel, the extra-field length is 20, and a typed extra
block (tag 0x0001, size 16, the true 64-bit uncompressed then compressed
sizes — 20 bytes in all) follows the name; otherwise the extra-field
length is 0 and the 32-bit fields hold the true values.  The record is
46 bytes plus the name, plus 20 exactly when the extension is engaged. -/
theorem central_directory_large_extension_layout (w : W) (e : CentralDirectoryEntry) :
    write_central_directory_header none w e = .ok (w ++ cdhBytes e) ∧
    (le16 0x0001 ++ le16 16 ++ le64 e.uncompressed_size ++ le64 e.compressed_size).length
      = 20 ∧
    (cdhBytes e).length =
      46 + e.file_name.length + (if needs_zip64 e then 20 else 0) := by
  refine ⟨write_central_directory_header_none w e, by simp [le16, le64], ?_⟩
  by_cases hz : needs_zip64 e
  · rw [cdhBytes_pos e hz]
    simp [cdhChunks1, cdhChunks2, le16, le32, le64, hz]
    omega
  · rw [cdhBytes_neg e hz]
    simp [cdhChunks1, le16, le32, hz]
    omega

/-- C7 (counterexample): for the true entry count 65536 the terminator's
count fields are written as 0 — the `as u16` cast at the call site wraps
modulo 2^16 — whereas capping at the 16-bit all-ones sentinel would
write 65535, i.e. bytes `[255, 255]`, not `[0, 0]`. -/
theorem eocd_count_truncated_counterexample :
    write_end_of_central_directory none [] (65536 % 65536) 5 7 =
      .ok [0x50, 0x4b, 0x05, 0x06, 0, 0, 0, 0, 0, 0, 0, 0,
           5, 0, 0, 0, 7, 0, 0, 0, 0, 0] ∧
    le16 (min 65536 65535) ≠ [0, 0] :=
  ⟨rfl, by decide⟩

/-- C7 (amended): the terminator's directory-size and directory-offset
fields are written capped at the 32-bit all-ones sentinel when the value
exceeds 32-bit capacity and as the true value otherwise, while the entry
count is written reduced modulo 2^16 (the `u16` cast of the caller), not
capped at 0xFFFF. -/
theorem eocd_fields_capped_count_truncated (w : W) (n s o : Nat) :
    write_end_of_central_directory none w (n % 65536) s o = .ok (w ++ eocdBytes n s o) :=
  write_end_of_central_directory_none w n s o

/-- C8 (counterexample): for the 65536-byte stored name `bigName`, the
local header's name-length field holds the bytes `[0, 0]` (the value 0):
`file_name.len() as u16` wraps modulo 2^16, so the field does not hold
the stored-name length 65536. -/
theorem local_header_name_length_wraps_counterexample :
    write_local_header none [] bigName 0 0 0x21 =
      .ok (localHeaderBytes bigName 0 0 0x21) ∧
    ((localHeaderBytes bigName 0 0 0x21).drop 26).take 2 = [0, 0] ∧
    bigName.length = 65536 ∧
    (0 : Nat) ≠ 65536 := by
  have hl : bigName.length = 65536 := List.length_replicate 65536 97
  refine ⟨?_, ?_, hl, by decide⟩
  · have := write_local_header_none [] bigName 0 0 0x21
    simpa using this
  · simp [localHeaderBytes, le16, le32, hl]

/-- C8 (amended): for every entry the emitted local header bytes are
exactly: signature 0x04034b50, version 20, flag 0x0008 (sizes-deferred
bit), the method code (0 for Store, 8 for Deflate), the DOS time/date of
`dos_datetime`, zeroed CRC and size placeholders, the stored-name length
reduced modulo 2^16, extra-field length 0, then the `archive_path`
bytes, all multi-byte integers little-endian. -/
theorem local_header_layout (comp : Compression) (w : W) (n : List Nat) (secs : Nat) :
    write_local_header none w n (methodCode comp) (dos_datetime secs).1
        (dos_datetime secs).2 =
      .ok (w ++ (le32 0x04034b50 ++ le16 20 ++ le16 0x0008 ++ le16 (methodCode comp) ++
        le16 0 ++ le16 0x21 ++ le32 0 ++ le32 0 ++ le32 0 ++ le16 (n.length % 65536) ++
        le16 0 ++ n)) := by
  have := write_local_header_none w n (methodCode comp) 0 0x21
  simpa [localHeaderBytes, dos_datetime] using this
